import Mathlib

/-
Verification of the capacity-estimation core of the QuLearn repository
(qml_mor/fat.py, qml_mor/trainer.py, qml_mor/models.py and the
fat-shattering experiment script).

Shallow embedding conventions:
* Real-valued quantities (predictions, offsets, margins, losses) are
  modelled as rationals; only order comparisons and field arithmetic on
  them matter to the verified control flow.
* The opaque numeric collaborators (the quantum model, the optimizer and
  the data generator) are abstracted into explicit functions: the fitted
  prediction for point i after training on labeling sample sb and offset
  sample sr is a function of (sr, sb, i), and the per-epoch training loss
  of RegressionTrainer.train is a function of the epoch index.
* Python exceptions are modelled with Except / Option; warnings.warn
  calls are modelled as explicit warning values in the result.
-/

namespace QuLearn

/-! ## fat.py: check_shattering (lines 58-103) -/

/-- Data reaching check_shattering, as produced by datagen.gen_data(d):
Sr offset samples (len(r)), Sb labeling samples (len(b)), d points;
b sb i is the binary label b[sb, i], r sr i the offset level r[sr, i],
and pred sr sb i the prediction for point i after the fit for the
(sr, sb) labeling/offset combination. -/
structure ShatterData where
  Sr : ℕ
  Sb : ℕ
  d : ℕ
  b : ℕ → ℕ → ℤ
  r : ℕ → ℕ → ℚ
  pred : ℕ → ℕ → ℕ → ℚ

/-- Per-point check of the inner loop of check_shattering (fat.py lines
89-95): if b[sb,i] == 1 require pred >= r[sr,i] + gamma, if b[sb,i] == 0
require pred <= r[sr,i] - gamma, otherwise no constraint. -/
def pointOK (D : ShatterData) (gamma : ℚ) (sr sb i : ℕ) : Bool :=
  if D.b sb i = 1 then decide (D.r sr i + gamma ≤ D.pred sr sb i)
  else if D.b sb i = 0 then decide (D.pred sr sb i ≤ D.r sr i - gamma)
  else true

/-- One labeling sample is realized when every point passes; the source
breaks out of the point loop on the first violation, which List.all
mirrors. -/
def labelingOK (D : ShatterData) (gamma : ℚ) (sr sb : ℕ) : Bool :=
  (List.range D.d).all (fun i => pointOK D gamma sr sb i)

/-- check_shattering (fat.py lines 58-103): return True at the first
offset sample sr whose Sb labelings are all realized, False after all Sr
offset samples failed. -/
def check_shattering (D : ShatterData) (gamma : ℚ) : Bool :=
  (List.range D.Sr).any (fun sr =>
    (List.range D.Sb).all (fun sb => labelingOK D gamma sr sb))

/-! ## fat.py: fat_shattering_dim (lines 16-55) -/

/-- Warnings emitted by fat_shattering_dim via warnings.warn. -/
inductive FatWarning where
  | stoppedAtDmin : ℤ → FatWarning
  | reachedDmax : ℤ → FatWarning
deriving DecidableEq

/-- The sizes visited by the loop, Python range(dmin, dmax + 1, dstep)
for a positive step (range raises on dstep = 0 and the sources only use
positive steps, so dstep is a natural and theorems assume 1 ≤ dstep). -/
def fatIters (dmin dmax : ℤ) (dstep : ℕ) : List ℤ :=
  if dmax < dmin then []
  else (List.range ((dmax - dmin).toNat / dstep + 1)).map
    (fun k : ℕ => dmin + (k : ℤ) * (dstep : ℤ))

/-- The loop body of fat_shattering_dim (fat.py lines 45-55), with the
outcome of check_shattering at each size abstracted into check: on the
first non-shattered d return d - 1, warning when d is dmin; when the
list is exhausted warn and return dmax. -/
def fatLoop (check : ℤ → Bool) (dmin dmax : ℤ) : List ℤ → ℤ × List FatWarning
  | [] => (dmax, [FatWarning.reachedDmax dmax])
  | d :: rest =>
    if check d then fatLoop check dmin dmax rest
    else if d = dmin then (d - 1, [FatWarning.stoppedAtDmin dmin])
    else (d - 1, [])

/-- fat_shattering_dim (fat.py lines 16-55): returned estimate together
with the warnings raised. -/
def fat_shattering_dim (check : ℤ → Bool) (dmin dmax : ℤ) (dstep : ℕ) :
    ℤ × List FatWarning :=
  fatLoop check dmin dmax (fatIters dmin dmax dstep)

/-- Concrete shattering oracle used in witnesses and counterexamples:
sizes below 3 shatter, larger ones do not. -/
def checkLt3 : ℤ → Bool := fun d => decide (d < 3)

/-- Concrete oracle for which no size shatters. -/
def checkNone : ℤ → Bool := fun _ => false

/-- Concrete oracle for which every size shatters. -/
def checkAll : ℤ → Bool := fun _ => true

/-! ## fat.py: normalize_const (lines 106-122) and its production call
(experiments/fat_shattering/fat_torch_iqpe_reup_parity.py line 222) -/

/-- Declared parameter names of normalize_const (fat.py line 106):
def normalize_const(weights, gamma). The signature has no **kwargs. -/
def normalize_const_params : List String := ["weights", "gamma"]

/-- Keyword names passed at the production call site, main() of the
experiment script line 222: normalize_const(weights=W, gamma=gamma,
Rx=sizex). -/
def main_normalize_const_kwargs : List String := ["weights", "gamma", "Rx"]

/-- Python keyword binding for a signature without **kwargs: the call
raises TypeError (an unexpected keyword argument) unless every keyword
matches a declared parameter name. -/
def kwargsAccepted (declared kwargs : List String) : Bool :=
  kwargs.all (fun k => declared.contains k)

/-! ## trainer.py: RegressionTrainer.train (lines 133-229) -/

/-- Configuration of RegressionTrainer relevant to train's control flow
and return value. -/
structure TrainerCfg where
  num_epochs : ℕ
  opt_stop : ℚ
  stagnation_threshold : ℚ
  stagnation_count : ℕ
  best_loss : Bool
deriving DecidableEq

/-- How the epoch loop of train ended. -/
inductive StopReason where
  | optStop : ℕ → StopReason
  | stagnation : ℕ → StopReason
  | completed : StopReason
deriving DecidableEq

/-- Observable outcome of the epoch loop: the stop reason, the number of
executed epochs, the last computed training loss, the best-loss tracker
(none models the initial float inf), and whether the early-stopping
warning was emitted. -/
structure TrainResult where
  reason : StopReason
  epochs_run : ℕ
  last_tloss : ℚ
  best_tloss : Option ℚ
  warned : Bool
deriving DecidableEq

/-- Best-loss tracker update (trainer.py lines 180-182): replace the
tracked best when the new loss is strictly smaller; none is the initial
infinity. -/
def bestUpdate (best : Option ℚ) (x : ℚ) : Option ℚ :=
  match best with
  | none => some x
  | some b => if x < b then some x else some b

/-- The epoch loop of RegressionTrainer.train (trainer.py lines 158-215)
with the training pass abstracted into the per-epoch loss sequence t.
Arguments after t: remaining epochs, current epoch index, prev_loss,
stag_counter, best_tloss, last computed tloss. Per epoch: compute the
loss, update the best tracker when best_loss is set, break on
tloss <= opt_stop, then (when a previous loss exists) update the
stagnation counter from the relative decrease and break with a warning
once it reaches stagnation_count. Validation losses and MRE influence
neither control flow nor the returned loss and are not modelled. -/
def trainLoop (cfg : TrainerCfg) (t : ℕ → ℚ) :
    ℕ → ℕ → Option ℚ → ℕ → Option ℚ → ℚ → TrainResult
  | 0, epoch, _, _, best, last =>
    { reason := StopReason.completed, epochs_run := epoch,
      last_tloss := last, best_tloss := best, warned := false }
  | fuel + 1, epoch, prev, stag, best, _ =>
    let tloss := t epoch
    let best2 := if cfg.best_loss then bestUpdate best tloss else best
    if tloss ≤ cfg.opt_stop then
      { reason := StopReason.optStop epoch, epochs_run := epoch + 1,
        last_tloss := tloss, best_tloss := best2, warned := false }
    else
      match prev with
      | none => trainLoop cfg t fuel (epoch + 1) (some tloss) stag best2 tloss
      | some p =>
        let stag2 :=
          if (p - tloss) / p < cfg.stagnation_threshold then stag + 1 else 0
        if cfg.stagnation_count ≤ stag2 then
          { reason := StopReason.stagnation epoch, epochs_run := epoch + 1,
            last_tloss := tloss, best_tloss := best2, warned := true }
        else trainLoop cfg t fuel (epoch + 1) (some tloss) stag2 best2 tloss

/-- RegressionTrainer.train for a given loss sequence. The none result
models the NameError the source hits when num_epochs is 0 (line 217
reads tloss although no epoch ever assigned it). -/
def trainRun (cfg : TrainerCfg) (t : ℕ → ℚ) : Option TrainResult :=
  if cfg.num_epochs = 0 then none
  else some (trainLoop cfg t cfg.num_epochs 0 none 0 none 0)

/-- The value returned by train (trainer.py lines 217-229): the best
training loss when best_loss is set, the last epoch's loss otherwise. -/
def finalLoss (cfg : TrainerCfg) (r : TrainResult) : Option ℚ :=
  if cfg.best_loss then r.best_tloss else some r.last_tloss

/-- Relative training-loss decrease of epoch j with respect to epoch
j - 1 falls below the stagnation threshold (trainer.py lines 192-194);
meaningful for j ≥ 1, the epochs that have a previous loss. -/
def stagBelow (cfg : TrainerCfg) (t : ℕ → ℚ) (j : ℕ) : Prop :=
  (t (j - 1) - t j) / t (j - 1) < cfg.stagnation_threshold

/-- Value of stag_counter after the update of epoch j (trainer.py lines
194-197): incremented while the relative decrease stays below the
threshold, reset to zero otherwise; epoch 0 performs no update. -/
def stagCtr (cfg : TrainerCfg) (t : ℕ → ℚ) : ℕ → ℕ
  | 0 => 0
  | j + 1 =>
    if (t j - t (j + 1)) / t j < cfg.stagnation_threshold then
      stagCtr cfg t j + 1
    else 0

/-- Losses of the window of n epochs starting at epoch e. -/
def lossWindow (t : ℕ → ℚ) (e n : ℕ) : List ℚ :=
  (List.range n).map (fun k => t (e + k))

/-- Folding the best-loss tracker over a list of losses. -/
def bestFold (best : Option ℚ) : List ℚ → Option ℚ
  | [] => best
  | x :: xs => bestFold (bestUpdate best x) xs

/-- Concrete trainer configuration used by the witness: one epoch,
best_loss enabled. -/
def cfgW : TrainerCfg :=
  { num_epochs := 1, opt_stop := 0, stagnation_threshold := 1 / 2,
    stagnation_count := 5, best_loss := true }

/-- Concrete loss sequence used by the witness. -/
def tW : ℕ → ℚ := fun _ => 4

/-- Result of running the witness configuration: the single epoch
completes with loss 4. -/
def resW : TrainResult :=
  { reason := StopReason.completed, epochs_run := 1,
    last_tloss := 4, best_tloss := some 4, warned := false }

/-! ## models.py: IQPEReuploadSU2Parity (lines 39-143) -/

/-- State of an IQPEReuploadSU2Parity instance: the three parameter
tensors (kept abstract) and the scaling factor omega. -/
structure IQPEModel (T : Type) where
  init_theta : T
  theta : T
  W : T
  omega : ℚ

/-- Constructor of IQPEReuploadSU2Parity (models.py lines 50-65): raise
ValueError unless the parameter list has exactly three entries, before
any attribute is assigned; otherwise store them as the initial thetas,
the main thetas and the weights W. -/
def IQPE_init {T : Type} (ps : List T) (omega : ℚ) :
    Except String (IQPEModel T) :=
  match ps with
  | [a, b, c] =>
    Except.ok { init_theta := a, theta := b, W := c, omega := omega }
  | _ => Except.error "Parameters must be a list of 3 tensors"

/-- The params setter (models.py lines 104-121): the same arity check,
raised before any of the three attributes is reassigned, so an erroneous
call leaves the model state untouched (the error branch returns no
updated model). -/
def IQPE_setParams {T : Type} (m : IQPEModel T) (ps : List T) :
    Except String (IQPEModel T) :=
  match ps with
  | [a, b, c] => Except.ok { m with init_theta := a, theta := b, W := c }
  | _ => Except.error "Parameters must be a list of 3 tensors"

/-! ## models.py: sequence_generator (lines 195-215) and parities
(lines 218-245) -/

/-- sequence_generator (models.py lines 195-215): all binary sequences
of length n, built by extending each sequence over n - 1 first with the
element n - 1 appended at the end and then without it. -/
def sequence_generator : ℕ → List (List ℕ)
  | 0 => [[]]
  | n + 1 => (sequence_generator n).flatMap (fun s => [s ++ [n], s])

/-- Observables built by parities: PauliZ factors on wires combined with
the tensor product, and the identity term. -/
inductive Obs where
  | pauliZ : ℕ → Obs
  | prod : Obs → Obs → Obs
  | identity : ℕ → Obs
deriving DecidableEq

/-- The observable built from one subset (models.py lines 234-241): none
for the empty sequence, otherwise the left-nested tensor product of
PauliZ on its wires. -/
def parityOp (par : List ℕ) : Option Obs :=
  match par with
  | [] => none
  | p :: rest =>
    some (rest.foldl (fun tmp i => Obs.prod tmp (Obs.pauliZ i)) (Obs.pauliZ p))

/-- parities (models.py lines 218-245): one observable per non-empty
sequence, in generation order, followed by the identity on wire 0. -/
def parities (n : ℕ) : List Obs :=
  (sequence_generator n).filterMap parityOp ++ [Obs.identity 0]

/-! ## Theorems about check_shattering -/

/-- The per-point check passes exactly when the prediction sits on the
required side of the offset for its candidate label. -/
theorem pointOK_true_iff (D : ShatterData) (gamma : ℚ) (sr sb i : ℕ) :
    pointOK D gamma sr sb i = true ↔
      ((D.b sb i = 1 → D.r sr i + gamma ≤ D.pred sr sb i) ∧
       (D.b sb i = 0 → D.pred sr sb i ≤ D.r sr i - gamma)) := by
  unfold pointOK
  split_ifs with h1 h2
  · simp [h1]
  · simp [h1, h2]
  · simp [h1, h2]

/-- The per-point check fails exactly at a violated point. -/
theorem pointOK_false_iff (D : ShatterData) (gamma : ℚ) (sr sb i : ℕ) :
    pointOK D gamma sr sb i = false ↔
      ((D.b sb i = 1 ∧ ¬ (D.r sr i + gamma ≤ D.pred sr sb i)) ∨
       (D.b sb i = 0 ∧ ¬ (D.pred sr sb i ≤ D.r sr i - gamma))) := by
  unfold pointOK
  split_ifs with h1 h2
  · simp [h1]
  · simp [h1, h2]
  · simp [h1, h2]

/-- Claim C1: check_shattering returns True if and only if some offset
sample sr has every labeling sample sb realized at every point within
the margin, and returns False exactly when every offset sample has some
labeling with a violated point. -/
theorem check_shattering_iff (D : ShatterData) (gamma : ℚ) :
    (check_shattering D gamma = true ↔
      ∃ sr < D.Sr, ∀ sb < D.Sb, ∀ i < D.d,
        (D.b sb i = 1 → D.r sr i + gamma ≤ D.pred sr sb i) ∧
        (D.b sb i = 0 → D.pred sr sb i ≤ D.r sr i - gamma)) ∧
    (check_shattering D gamma = false ↔
      ∀ sr < D.Sr, ∃ sb < D.Sb, ∃ i < D.d,
        ((D.b sb i = 1 ∧ ¬ (D.r sr i + gamma ≤ D.pred sr sb i)) ∨
         (D.b sb i = 0 ∧ ¬ (D.pred sr sb i ≤ D.r sr i - gamma)))) := by
  constructor
  · simp only [check_shattering, labelingOK, List.any_eq_true,
      List.all_eq_true, List.mem_range, pointOK_true_iff]
  · simp only [check_shattering, labelingOK, List.any_eq_false,
      List.all_eq_false, List.mem_range, Bool.not_eq_true,
      pointOK_false_iff]

/-! ## Theorems about fat_shattering_dim -/

/-- When every visited size shatters, the loop falls through to the
reached-dmax warning and returns dmax. -/
theorem fatLoop_all_true (check : ℤ → Bool) (dmin dmax : ℤ) :
    ∀ l : List ℤ, (∀ d ∈ l, check d = true) →
      fatLoop check dmin dmax l = (dmax, [FatWarning.reachedDmax dmax]) := by
  intro l
  induction l with
  | nil => intro _; rfl
  | cons a rest ih =>
    intro h
    have ha : check a = true := h a (List.mem_cons_self a rest)
    have htl := ih (fun d hd => h d (List.mem_cons_of_mem a hd))
    simpa [fatLoop, ha] using htl

/-- On a strictly increasing list of sizes, the loop stops at the first
size whose check fails and returns that size minus one. -/
theorem fatLoop_first_false (check : ℤ → Bool) (dmin dmax : ℤ) :
    ∀ l : List ℤ, l.Pairwise (· < ·) → ∀ d ∈ l, check d = false →
      (∀ e ∈ l, e < d → check e = true) →
      (fatLoop check dmin dmax l).1 = d - 1 := by
  intro l
  induction l with
  | nil => intro _ d hd; cases hd
  | cons a rest ih =>
    intro hsort d hd hf hprev
    have hsort2 := (List.pairwise_cons.mp hsort).2
    have hlt := (List.pairwise_cons.mp hsort).1
    by_cases hca : check a = true
    · have hda : d ≠ a := by
        intro he; rw [he] at hf; rw [hf] at hca; cases hca
      have hdrest : d ∈ rest := by
        rcases List.mem_cons.mp hd with h | h
        · exact absurd h hda
        · exact h
      have htl := ih hsort2 d hdrest hf
        (fun e he hlt2 => hprev e (List.mem_cons_of_mem a he) hlt2)
      simpa [fatLoop, hca] using htl
    · have hda : d = a := by
        rcases List.mem_cons.mp hd with h | h
        · exact h
        · exact absurd (hprev a (List.mem_cons_self a rest) (hlt d h)) hca
      have hcaf : check a = false := by
        cases hb : check a
        · rfl
        · exact absurd hb hca
      subst hda
      by_cases hdm : d = dmin
      · subst hdm
        simp [fatLoop, hcaf]
      · simp [fatLoop, hcaf, hdm]

/-- For a positive step the visited sizes are strictly increasing. -/
theorem fatIters_sorted (dmin dmax : ℤ) (dstep : ℕ) (hstep : 1 ≤ dstep) :
    (fatIters dmin dmax dstep).Pairwise (· < ·) := by
  unfold fatIters
  split
  · exact List.Pairwise.nil
  · refine List.Pairwise.map _ ?_ (List.pairwise_lt_range _)
    intro a b hab
    have hab2 : (a : ℤ) < (b : ℤ) := by exact_mod_cast hab
    have hd : (0 : ℤ) < (dstep : ℤ) := by exact_mod_cast hstep
    have := mul_lt_mul_of_pos_right hab2 hd
    linarith

/-- When the range is non-empty its first visited size is dmin. -/
theorem fatIters_head (dmin dmax : ℤ) (dstep : ℕ) (hle : dmin ≤ dmax) :
    ∃ rest, fatIters dmin dmax dstep = dmin :: rest := by
  unfold fatIters
  rw [if_neg (not_lt.mpr hle), List.range_succ_eq_map, List.map_cons]
  refine ⟨List.map (fun k : ℕ => dmin + (k : ℤ) * (dstep : ℤ))
      (List.map Nat.succ (List.range ((dmax - dmin).toNat / dstep))), ?_⟩
  congr 1
  norm_num

/-- Claim C2 (amended): when the check fails at a visited size d and
succeeded at every earlier visited size, fat_shattering_dim returns
d - 1 -- which is the last successfully shattered size d - dstep only
in the default case dstep = 1. -/
theorem fat_dim_first_failure (check : ℤ → Bool) (dmin dmax : ℤ)
    (dstep : ℕ) (d : ℤ) (hstep : 1 ≤ dstep)
    (hmem : d ∈ fatIters dmin dmax dstep) (hf : check d = false)
    (hprev : ∀ e ∈ fatIters dmin dmax dstep, e < d → check e = true) :
    (fat_shattering_dim check dmin dmax dstep).1 = d - 1 :=
  fatLoop_first_false check dmin dmax _
    (fatIters_sorted dmin dmax dstep hstep) d hmem hf hprev

/-- Witness for C2: sizes 1, 3, 5 are visited, the check first fails at
3, and the function returns 3 - 1. -/
theorem fat_dim_first_failure_witness :
    (fat_shattering_dim checkLt3 1 5 2).1 = 3 - 1 :=
  fat_dim_first_failure checkLt3 1 5 2 3 (by decide) (by decide) (by decide)
    (by decide)

/-- Counterexample to C2 as stated: with dmin = 1, dmax = 5, dstep = 2
the visited sizes are 1, 3, 5; the check succeeds at 1 and first fails
at 3, yet the function returns 2, not the last shattered size
3 - 2 = 1. -/
theorem fat_dim_first_failure_cex :
    fatIters 1 5 2 = [1, 3, 5] ∧ checkLt3 1 = true ∧ checkLt3 3 = false ∧
    (fat_shattering_dim checkLt3 1 5 2).1 = 2 ∧ (2 : ℤ) ≠ 3 - 2 := by
  decide

/-- Claim C3 (amended): when the check already fails at dmin (and the
range is non-empty), fat_shattering_dim warns that it stopped at dmin
and returns dmin - 1 -- which is dmin - dstep only when dstep = 1. -/
theorem fat_dim_dmin_failure (check : ℤ → Bool) (dmin dmax : ℤ)
    (dstep : ℕ) (hle : dmin ≤ dmax) (hf : check dmin = false) :
    fat_shattering_dim check dmin dmax dstep =
      (dmin - 1, [FatWarning.stoppedAtDmin dmin]) := by
  obtain ⟨rest, hr⟩ := fatIters_head dmin dmax dstep hle
  unfold fat_shattering_dim
  rw [hr]
  simp [fatLoop, hf]

/-- Witness for C3: with dmin = 1, dmax = 5 and a check that always
fails, the function warns about dmin and returns 1 - 1. -/
theorem fat_dim_dmin_failure_witness :
    fat_shattering_dim checkNone 1 5 2 =
      (1 - 1, [FatWarning.stoppedAtDmin 1]) :=
  fat_dim_dmin_failure checkNone 1 5 2 (by decide) (by decide)

/-- Counterexample to C3 as stated: with dmin = 1, dstep = 2 and a check
that always fails, the function returns 0, not dmin - dstep = -1. -/
theorem fat_dim_dmin_failure_cex :
    fat_shattering_dim checkNone 1 5 2 =
      (0, [FatWarning.stoppedAtDmin 1]) ∧ (0 : ℤ) ≠ 1 - 2 := by
  decide

/-- Claim C4: when the check succeeds at every visited size, the
function emits the reached-dmax warning and returns exactly dmax. -/
theorem fat_dim_reached_dmax (check : ℤ → Bool) (dmin dmax : ℤ)
    (dstep : ℕ) (h : ∀ d ∈ fatIters dmin dmax dstep, check d = true) :
    fat_shattering_dim check dmin dmax dstep =
      (dmax, [FatWarning.reachedDmax dmax]) :=
  fatLoop_all_true check dmin dmax _ h

/-- Witness for C4: every size in 1..3 shatters, so the function warns
about dmax and returns 3. -/
theorem fat_dim_reached_dmax_witness :
    fat_shattering_dim checkAll 1 3 1 = (3, [FatWarning.reachedDmax 3]) :=
  fat_dim_reached_dmax checkAll 1 3 1 (by decide)

/-- Claim C9: when dmin > dmax the loop visits no size at all, so no
shattering check runs (the result does not depend on the check), yet
the reached-dmax warning is emitted and dmax is returned. -/
theorem fat_dim_empty_range (check : ℤ → Bool) (dmin dmax : ℤ)
    (dstep : ℕ) (h : dmax < dmin) :
    fatIters dmin dmax dstep = [] ∧
    fat_shattering_dim check dmin dmax dstep =
      (dmax, [FatWarning.reachedDmax dmax]) := by
  have he : fatIters dmin dmax dstep = [] := by
    unfold fatIters
    rw [if_pos h]
  refine ⟨he, ?_⟩
  unfold fat_shattering_dim
  rw [he]
  rfl

/-- Witness for C9: dmin = 5 > dmax = 2 visits nothing, warns about
dmax and returns 2 even though the check never succeeds anywhere. -/
theorem fat_dim_empty_range_witness :
    fatIters 5 2 1 = [] ∧
    fat_shattering_dim checkNone 5 2 1 = (2, [FatWarning.reachedDmax 2]) :=
  fat_dim_empty_range checkNone 5 2 1 (by decide)

/-! ## Theorems about the normalize_const call mismatch -/

/-- Claim C5: the production call of normalize_const passes the keyword
Rx, which is not among the declared parameters (weights, gamma), so the
keyword binding fails and the call always raises a TypeError instead of
returning. -/
theorem normalize_const_call_mismatch :
    main_normalize_const_kwargs.contains "Rx" = true ∧
    normalize_const_params.contains "Rx" = false ∧
    kwargsAccepted normalize_const_params main_normalize_const_kwargs =
      false := by
  decide

/-! ## Theorems about RegressionTrainer.train -/

/-- Unfolding of the stagnation counter at a positive epoch. -/
theorem stagCtr_succ (cfg : TrainerCfg) (t : ℕ → ℚ) (m : ℕ) :
    stagCtr cfg t (m + 1) =
      if (t m - t (m + 1)) / t m < cfg.stagnation_threshold then
        stagCtr cfg t m + 1
      else 0 := rfl

/-- The loop sets the warning flag exactly on a stagnation stop. -/
theorem trainLoop_warned_iff (cfg : TrainerCfg) (t : ℕ → ℚ) :
    ∀ (fuel epoch : ℕ) (prev : Option ℚ) (stag : ℕ) (best : Option ℚ)
      (last : ℚ),
      ((trainLoop cfg t fuel epoch prev stag best last).warned = true ↔
        ∃ e2, (trainLoop cfg t fuel epoch prev stag best last).reason =
          StopReason.stagnation e2) := by
  intro fuel
  induction fuel with
  | zero =>
    intro epoch prev stag best last
    simp [trainLoop]
  | succ fuel ih =>
    intro epoch prev stag best last
    simp only [trainLoop]
    by_cases h1 : t epoch ≤ cfg.opt_stop
    · simp [h1]
    · rw [if_neg h1]
      cases prev with
      | none => exact ih (epoch + 1) (some (t epoch)) stag _ (t epoch)
      | some p =>
        dsimp only
        by_cases h2 : cfg.stagnation_count ≤
            (if (p - t epoch) / p < cfg.stagnation_threshold then stag + 1
             else 0)
        · simp [h2]
        · rw [if_neg h2]
          exact ih (epoch + 1) (some (t epoch)) _ _ (t epoch)

/-- Specialization of the warning flag equivalence to a full run. -/
theorem trainRun_warned_iff (cfg : TrainerCfg) (t : ℕ → ℚ) :
    ∀ res : TrainResult, trainRun cfg t = some res →
      (res.warned = true ↔
        ∃ e2, res.reason = StopReason.stagnation e2) := by
  intro res h
  unfold trainRun at h
  by_cases hn : cfg.num_epochs = 0
  · rw [if_pos hn] at h
    cases h
  · rw [if_neg hn] at h
    injection h with h
    subst h
    exact trainLoop_warned_iff cfg t cfg.num_epochs 0 none 0 none 0

/-- Characterization of a stagnation stop for the loop started at an
epoch e of at least 1 with the invariant state prev = t (e - 1) and
stag = stagCtr (e - 1). -/
theorem trainLoop_stag_iff (cfg : TrainerCfg) (t : ℕ → ℚ) :
    ∀ (fuel : ℕ), ∀ (e : ℕ) (best : Option ℚ) (last : ℚ), 1 ≤ e →
      ∀ e2 : ℕ,
      ((trainLoop cfg t fuel e (some (t (e - 1))) (stagCtr cfg t (e - 1))
          best last).reason = StopReason.stagnation e2 ↔
        (e ≤ e2 ∧ e2 < e + fuel ∧ cfg.opt_stop < t e2 ∧
         cfg.stagnation_count ≤ stagCtr cfg t e2 ∧
         ∀ j, e ≤ j → j < e2 →
           cfg.opt_stop < t j ∧ stagCtr cfg t j < cfg.stagnation_count)) := by
  intro fuel
  induction fuel with
  | zero =>
    intro e best last he e2
    simp only [trainLoop]
    constructor
    · intro h
      cases h
    · rintro ⟨h1, h2, -⟩
      omega
  | succ fuel ih =>
    intro e best last he e2
    obtain ⟨m, rfl⟩ : ∃ m, e = m + 1 := ⟨e - 1, by omega⟩
    simp only [trainLoop, Nat.add_sub_cancel]
    by_cases h1 : t (m + 1) ≤ cfg.opt_stop
    · rw [if_pos h1]
      constructor
      · intro h
        cases h
      · rintro ⟨ha, hb, hc, hd, hj⟩
        exfalso
        have hcontr : cfg.opt_stop < t (m + 1) := by
          rcases eq_or_lt_of_le ha with heq | hlt
          · rw [heq]
            exact hc
          · exact (hj (m + 1) le_rfl hlt).1
        exact absurd hcontr (not_lt.mpr h1)
    · rw [if_neg h1, ← stagCtr_succ]
      by_cases h2 : cfg.stagnation_count ≤ stagCtr cfg t (m + 1)
      · rw [if_pos h2]
        constructor
        · intro h
          have he2 : e2 = m + 1 := by
            cases h
            rfl
          subst he2
          refine ⟨le_rfl, by omega, not_le.mp h1, h2, ?_⟩
          intro j hj1 hj2
          omega
        · rintro ⟨ha, hb, hc, hd, hj⟩
          have he2 : e2 = m + 1 := by
            by_contra hne
            have hlt : m + 1 < e2 := by omega
            exact absurd h2 (not_le.mpr (hj (m + 1) le_rfl hlt).2)
          subst he2
          rfl
      · rw [if_neg h2]
        have hih := ih (m + 1 + 1)
          (if cfg.best_loss = true then bestUpdate best (t (m + 1)) else best)
          (t (m + 1)) (by omega) e2
        simp only [Nat.add_sub_cancel] at hih
        rw [hih]
        constructor
        · rintro ⟨ha, hb, hc, hd, hj⟩
          refine ⟨by omega, by omega, hc, hd, ?_⟩
          intro j hj1 hj2
          by_cases hje : j = m + 1
          · subst hje
            exact ⟨not_le.mp h1, not_le.mp h2⟩
          · exact hj j (by omega) hj2
        · rintro ⟨ha, hb, hc, hd, hj⟩
          have hne : e2 ≠ m + 1 := by
            intro hje
            subst hje
            exact absurd hd h2
          refine ⟨by omega, by omega, hc, hd, ?_⟩
          intro j hj1 hj2
          exact hj j (by omega) hj2

/-- The stagnation counter reaches c at epoch e exactly when the last c
relative decreases, the ones of epochs e - c + 1 through e, were all
below the threshold (which requires at least c completed updates). -/
theorem stagCtr_ge_iff (cfg : TrainerCfg) (t : ℕ → ℚ) :
    ∀ (e c : ℕ), c ≤ stagCtr cfg t e ↔
      (c ≤ e ∧ ∀ j, e - c < j → j ≤ e → stagBelow cfg t j) := by
  intro e
  induction e with
  | zero =>
    intro c
    have h0 : stagCtr cfg t 0 = 0 := rfl
    constructor
    · intro h
      have hc : c = 0 := by omega
      subst hc
      refine ⟨le_rfl, ?_⟩
      intro j hj1 hj2
      exact absurd hj1 (by omega)
    · rintro ⟨h1, -⟩
      omega
  | succ e ih =>
    intro c
    rw [stagCtr_succ]
    by_cases hb : (t e - t (e + 1)) / t e < cfg.stagnation_threshold
    · rw [if_pos hb]
      have hbel : stagBelow cfg t (e + 1) := by
        unfold stagBelow
        simpa using hb
      cases c with
      | zero =>
        constructor
        · intro h
          refine ⟨by omega, ?_⟩
          intro j hj1 hj2
          exact absurd hj1 (by omega)
        · intro h
          omega
      | succ c =>
        rw [Nat.succ_le_succ_iff, ih c]
        constructor
        · rintro ⟨h1, h2⟩
          refine ⟨by omega, ?_⟩
          intro j hj1 hj2
          by_cases hje : j = e + 1
          · subst hje
            exact hbel
          · exact h2 j (by omega) (by omega)
        · rintro ⟨h1, h2⟩
          refine ⟨by omega, ?_⟩
          intro j hj1 hj2
          exact h2 j (by omega) (by omega)
    · rw [if_neg hb]
      constructor
      · intro h
        have hc : c = 0 := by omega
        subst hc
        refine ⟨by omega, ?_⟩
        intro j hj1 hj2
        exact absurd hj1 (by omega)
      · rintro ⟨h1, h2⟩
        by_cases hc : c = 0
        · subst hc
          omega
        · exfalso
          have hbel := h2 (e + 1) (by omega) le_rfl
          unfold stagBelow at hbel
          simp only [Nat.add_sub_cancel] at hbel
          exact hb hbel

/-- Characterization of a stagnation stop of the whole run in terms of
the stagnation counter. -/
theorem trainRun_reason_stag_iff (cfg : TrainerCfg) (t : ℕ → ℚ) (e2 : ℕ) :
    (∃ res, trainRun cfg t = some res ∧
       res.reason = StopReason.stagnation e2) ↔
      (1 ≤ e2 ∧ e2 < cfg.num_epochs ∧ cfg.opt_stop < t e2 ∧
       cfg.stagnation_count ≤ stagCtr cfg t e2 ∧
       ∀ j, j < e2 → cfg.opt_stop < t j ∧
         (1 ≤ j → stagCtr cfg t j < cfg.stagnation_count)) := by
  unfold trainRun
  by_cases hn : cfg.num_epochs = 0
  · rw [if_pos hn]
    constructor
    · rintro ⟨res, hres, -⟩
      cases hres
    · rintro ⟨-, hb, -⟩
      omega
  · rw [if_neg hn]
    have hmain : (trainLoop cfg t cfg.num_epochs 0 none 0 none 0).reason =
        StopReason.stagnation e2 ↔
        (1 ≤ e2 ∧ e2 < cfg.num_epochs ∧ cfg.opt_stop < t e2 ∧
         cfg.stagnation_count ≤ stagCtr cfg t e2 ∧
         ∀ j, j < e2 → cfg.opt_stop < t j ∧
           (1 ≤ j → stagCtr cfg t j < cfg.stagnation_count)) := by
      obtain ⟨k, hk⟩ : ∃ k, cfg.num_epochs = k + 1 :=
        ⟨cfg.num_epochs - 1, by omega⟩
      rw [hk]
      simp only [trainLoop]
      by_cases h0 : t 0 ≤ cfg.opt_stop
      · rw [if_pos h0]
        constructor
        · intro h
          cases h
        · rintro ⟨ha, hb, hc, hd, hj⟩
          exfalso
          have hcontr : cfg.opt_stop < t 0 := by
            rcases Nat.eq_zero_or_pos e2 with he0 | he0
            · omega
            · exact (hj 0 he0).1
          exact absurd hcontr (not_lt.mpr h0)
      · rw [if_neg h0]
        have hinv := trainLoop_stag_iff cfg t k 1
          (if cfg.best_loss = true then bestUpdate none (t 0) else none)
          (t 0) le_rfl e2
        norm_num at hinv
        have hz : stagCtr cfg t 0 = 0 := rfl
        rw [hz] at hinv
        simp only [Nat.zero_add]
        rw [hinv]
        constructor
        · rintro ⟨ha, hb, hc, hd, hj⟩
          refine ⟨ha, by omega, hc, hd, ?_⟩
          intro j hj2
          by_cases hj0 : j = 0
          · subst hj0
            exact ⟨not_le.mp h0, fun hcon => absurd hcon (by omega)⟩
          · exact ⟨(hj j (by omega) hj2).1,
              fun _ => (hj j (by omega) hj2).2⟩
        · rintro ⟨ha, hb, hc, hd, hj⟩
          refine ⟨ha, by omega, hc, hd, ?_⟩
          intro j hj1 hj2
          exact ⟨(hj j hj2).1, (hj j hj2).2 hj1⟩
    constructor
    · rintro ⟨res, hres, hr⟩
      injection hres with hres
      subst hres
      exact hmain.mp hr
    · intro h
      exact ⟨_, rfl, hmain.mpr h⟩

/-- Claim C6: train stops early with a warning exactly when the
relative training-loss decrease has stayed below stagnation_threshold
for stagnation_count consecutive epochs (the counter resets on any
epoch meeting the threshold and no earlier stop fired), and the first
epoch performs no stagnation tracking (a stagnation stop can only
happen at epoch 1 or later, after stagnation_count tracked epochs). -/
theorem trainRun_stagnation (cfg : TrainerCfg) (t : ℕ → ℚ) (e : ℕ) :
    ((∃ res, trainRun cfg t = some res ∧ res.warned = true ∧
        res.reason = StopReason.stagnation e) ↔
      (1 ≤ e ∧ e < cfg.num_epochs ∧ cfg.opt_stop < t e ∧
       cfg.stagnation_count ≤ e ∧
       (∀ j, e - cfg.stagnation_count < j → j ≤ e → stagBelow cfg t j) ∧
       (∀ j, j < e → cfg.opt_stop < t j) ∧
       (∀ j, 1 ≤ j → j < e →
         stagCtr cfg t j < cfg.stagnation_count))) ∧
    (∀ res, trainRun cfg t = some res →
      (res.warned = true ↔
        ∃ e2, res.reason = StopReason.stagnation e2)) := by
  refine ⟨?_, trainRun_warned_iff cfg t⟩
  constructor
  · rintro ⟨res, h1, -, h3⟩
    obtain ⟨ha, hb, hc, hd, hj⟩ :=
      (trainRun_reason_stag_iff cfg t e).mp ⟨res, h1, h3⟩
    obtain ⟨hd1, hd2⟩ := (stagCtr_ge_iff cfg t e cfg.stagnation_count).mp hd
    exact ⟨ha, hb, hc, hd1, hd2, fun j hj2 => (hj j hj2).1,
      fun j hj1 hj2 => (hj j hj2).2 hj1⟩
  · rintro ⟨ha, hb, hc, hd, hwin, hg, hh⟩
    have hctr : cfg.stagnation_count ≤ stagCtr cfg t e :=
      (stagCtr_ge_iff cfg t e cfg.stagnation_count).mpr ⟨hd, hwin⟩
    obtain ⟨res, h1, h3⟩ := (trainRun_reason_stag_iff cfg t e).mpr
      ⟨ha, hb, hc, hctr, fun j hj2 => ⟨hg j hj2, fun hj1 => hh j hj1 hj2⟩⟩
    have h2 : res.warned = true :=
      (trainRun_warned_iff cfg t res h1).mpr ⟨e, h3⟩
    exact ⟨res, h1, h2, h3⟩

/-- Loop invariants for the epoch count and the last computed loss:
the loop runs between 0 and fuel further epochs (at least one when fuel
is positive), and as soon as it executed an epoch the recorded last
loss is the loss of the final executed epoch. -/
theorem trainLoop_runs (cfg : TrainerCfg) (t : ℕ → ℚ) :
    ∀ (fuel epoch : ℕ) (prev : Option ℚ) (stag : ℕ) (best : Option ℚ)
      (last : ℚ),
      (epoch ≤ (trainLoop cfg t fuel epoch prev stag best last).epochs_run ∧
       (trainLoop cfg t fuel epoch prev stag best last).epochs_run ≤
         epoch + fuel) ∧
      (1 ≤ fuel →
        epoch + 1 ≤
          (trainLoop cfg t fuel epoch prev stag best last).epochs_run) ∧
      (epoch < (trainLoop cfg t fuel epoch prev stag best last).epochs_run →
        (trainLoop cfg t fuel epoch prev stag best last).last_tloss =
          t ((trainLoop cfg t fuel epoch prev stag best last).epochs_run -
            1)) ∧
      ((trainLoop cfg t fuel epoch prev stag best last).epochs_run = epoch →
        (trainLoop cfg t fuel epoch prev stag best last).last_tloss =
          last) := by
  intro fuel
  induction fuel with
  | zero =>
    intro epoch prev stag best last
    dsimp only [trainLoop]
    exact ⟨⟨le_rfl, by omega⟩, fun h => absurd h (by omega),
      fun h => absurd h (lt_irrefl epoch), fun _ => rfl⟩
  | succ fuel ih =>
    intro epoch prev stag best last
    simp only [trainLoop]
    by_cases h1 : t epoch ≤ cfg.opt_stop
    · rw [if_pos h1]
      dsimp only
      refine ⟨⟨by omega, by omega⟩, fun _ => by omega, fun _ => ?_,
        fun h => absurd h (by omega)⟩
      simp
    · rw [if_neg h1]
      cases prev with
      | none =>
        dsimp only
        obtain ⟨⟨ha1, ha2⟩, ha3, ha4, ha5⟩ := ih (epoch + 1) (some (t epoch))
          stag (if cfg.best_loss = true then bestUpdate best (t epoch)
            else best) (t epoch)
        refine ⟨⟨by omega, by omega⟩, fun _ => by omega, fun _ => ?_,
          fun h => absurd h (by omega)⟩
        rcases Nat.lt_or_ge (epoch + 1)
          ((trainLoop cfg t fuel (epoch + 1) (some (t epoch)) stag
            (if cfg.best_loss = true then bestUpdate best (t epoch)
              else best) (t epoch)).epochs_run) with hlt | hge
        · exact ha4 hlt
        · have heq : (trainLoop cfg t fuel (epoch + 1) (some (t epoch)) stag
              (if cfg.best_loss = true then bestUpdate best (t epoch)
                else best) (t epoch)).epochs_run = epoch + 1 := by omega
          rw [ha5 heq, heq]
          simp
      | some p =>
        dsimp only
        by_cases h2 : cfg.stagnation_count ≤
            (if (p - t epoch) / p < cfg.stagnation_threshold then stag + 1
             else 0)
        · rw [if_pos h2]
          dsimp only
          refine ⟨⟨by omega, by omega⟩, fun _ => by omega, fun _ => ?_,
            fun h => absurd h (by omega)⟩
          simp
        · rw [if_neg h2]
          obtain ⟨⟨ha1, ha2⟩, ha3, ha4, ha5⟩ := ih (epoch + 1)
            (some (t epoch))
            (if (p - t epoch) / p < cfg.stagnation_threshold then stag + 1
              else 0)
            (if cfg.best_loss = true then bestUpdate best (t epoch)
              else best) (t epoch)
          refine ⟨⟨by omega, by omega⟩, fun _ => by omega, fun _ => ?_,
            fun h => absurd h (by omega)⟩
          rcases Nat.lt_or_ge (epoch + 1)
            ((trainLoop cfg t fuel (epoch + 1) (some (t epoch))
              (if (p - t epoch) / p < cfg.stagnation_threshold then stag + 1
                else 0)
              (if cfg.best_loss = true then bestUpdate best (t epoch)
                else best) (t epoch)).epochs_run) with hlt | hge
          · exact ha4 hlt
          · have heq : (trainLoop cfg t fuel (epoch + 1) (some (t epoch))
                (if (p - t epoch) / p < cfg.stagnation_threshold then
                  stag + 1 else 0)
                (if cfg.best_loss = true then bestUpdate best (t epoch)
                  else best) (t epoch)).epochs_run = epoch + 1 := by omega
            rw [ha5 heq, heq]
            simp

/-- Peeling one epoch off a loss window. -/
theorem lossWindow_succ (t : ℕ → ℚ) (e m : ℕ) :
    lossWindow t e (m + 1) = t e :: lossWindow t (e + 1) m := by
  unfold lossWindow
  rw [List.range_succ_eq_map, List.map_cons, List.map_map]
  have htail : List.map ((fun k : ℕ => t (e + k)) ∘ Nat.succ)
      (List.range m) =
      List.map (fun k : ℕ => t (e + 1 + k)) (List.range m) := by
    apply List.map_congr_left
    intro a ha
    simp only [Function.comp_apply]
    congr 1
    omega
  rw [htail]
  norm_num

/-- Membership in a loss window. -/
theorem mem_lossWindow (t : ℕ → ℚ) (e n : ℕ) (y : ℚ) :
    y ∈ lossWindow t e n ↔ ∃ k, k < n ∧ t (e + k) = y := by
  unfold lossWindow
  simp [List.mem_map, List.mem_range]

/-- When best-loss tracking is on, the tracker after the loop is the
fold of the updates over the losses of the executed epochs. -/
theorem trainLoop_best (cfg : TrainerCfg) (t : ℕ → ℚ)
    (hb : cfg.best_loss = true) :
    ∀ (fuel epoch : ℕ) (prev : Option ℚ) (stag : ℕ) (best : Option ℚ)
      (last : ℚ),
      (trainLoop cfg t fuel epoch prev stag best last).best_tloss =
        bestFold best (lossWindow t epoch
          ((trainLoop cfg t fuel epoch prev stag best last).epochs_run -
            epoch)) := by
  have hwin1 : ∀ epoch, lossWindow t epoch 1 = [t epoch] := fun _ => rfl
  intro fuel
  induction fuel with
  | zero =>
    intro epoch prev stag best last
    simp [trainLoop, lossWindow, bestFold]
  | succ fuel ih =>
    intro epoch prev stag best last
    simp only [trainLoop, hb, eq_self_iff_true, if_true]
    by_cases h1 : t epoch ≤ cfg.opt_stop
    · rw [if_pos h1]
      dsimp only
      have h2 : epoch + 1 - epoch = 1 := by omega
      rw [h2, hwin1]
      rfl
    · rw [if_neg h1]
      cases prev with
      | none =>
        dsimp only
        have hr := (trainLoop_runs cfg t fuel (epoch + 1) (some (t epoch))
          stag (bestUpdate best (t epoch)) (t epoch)).1.1
        have hih := ih (epoch + 1) (some (t epoch)) stag
          (bestUpdate best (t epoch)) (t epoch)
        rw [hih]
        have hm : (trainLoop cfg t fuel (epoch + 1) (some (t epoch)) stag
            (bestUpdate best (t epoch)) (t epoch)).epochs_run - epoch =
            ((trainLoop cfg t fuel (epoch + 1) (some (t epoch)) stag
              (bestUpdate best (t epoch)) (t epoch)).epochs_run -
              (epoch + 1)) + 1 := by omega
        rw [hm, lossWindow_succ]
        rfl
      | some p =>
        dsimp only
        by_cases h2 : cfg.stagnation_count ≤
            (if (p - t epoch) / p < cfg.stagnation_threshold then stag + 1
             else 0)
        · rw [if_pos h2]
          dsimp only
          have h3 : epoch + 1 - epoch = 1 := by omega
          rw [h3, hwin1]
          rfl
        · rw [if_neg h2]
          have hr := (trainLoop_runs cfg t fuel (epoch + 1) (some (t epoch))
            (if (p - t epoch) / p < cfg.stagnation_threshold then stag + 1
              else 0) (bestUpdate best (t epoch)) (t epoch)).1.1
          have hih := ih (epoch + 1) (some (t epoch))
            (if (p - t epoch) / p < cfg.stagnation_threshold then stag + 1
              else 0) (bestUpdate best (t epoch)) (t epoch)
          rw [hih]
          have hm : (trainLoop cfg t fuel (epoch + 1) (some (t epoch))
              (if (p - t epoch) / p < cfg.stagnation_threshold then stag + 1
                else 0) (bestUpdate best (t epoch))
              (t epoch)).epochs_run - epoch =
              ((trainLoop cfg t fuel (epoch + 1) (some (t epoch))
                (if (p - t epoch) / p < cfg.stagnation_threshold then
                  stag + 1 else 0) (bestUpdate best (t epoch))
                (t epoch)).epochs_run - (epoch + 1)) + 1 := by omega
          rw [hm, lossWindow_succ]
          rfl

/-- The tracker update always produces a value: the running minimum of
the previous tracker and the new loss. -/
theorem bestUpdate_exists (best : Option ℚ) (x : ℚ) :
    ∃ b2, bestUpdate best x = some b2 ∧ b2 ≤ x ∧
      (b2 = x ∨ best = some b2) ∧ ∀ b, best = some b → b2 ≤ b := by
  cases best with
  | none =>
    refine ⟨x, rfl, le_rfl, Or.inl rfl, ?_⟩
    intro b hb
    cases hb
  | some b =>
    by_cases h : x < b
    · refine ⟨x, by simp [bestUpdate, h], le_rfl, Or.inl rfl, ?_⟩
      intro b2 hb2
      injection hb2 with h2
      subst h2
      exact le_of_lt h
    · refine ⟨b, by simp [bestUpdate, h], not_lt.mp h, Or.inr rfl, ?_⟩
      intro b2 hb2
      injection hb2 with h2
      subst h2
      exact le_rfl

/-- The fold of the tracker over a list computes a lower bound of the
list that is attained on the list (or was the incoming tracker). -/
theorem bestFold_spec :
    ∀ (l : List ℚ) (best : Option ℚ) (m : ℚ), bestFold best l = some m →
      (∀ x ∈ l, m ≤ x) ∧ (m ∈ l ∨ best = some m) ∧
      (∀ b, best = some b → m ≤ b) := by
  intro l
  induction l with
  | nil =>
    intro best m h
    have hb : best = some m := h
    refine ⟨by simp, Or.inr hb, ?_⟩
    intro b hb2
    rw [hb] at hb2
    injection hb2 with h2
    exact le_of_eq h2
  | cons x xs ih =>
    intro best m h
    simp only [bestFold] at h
    obtain ⟨b2, hb2, hb2x, hb2or, hb2min⟩ := bestUpdate_exists best x
    obtain ⟨h1, h2, h3⟩ := ih (bestUpdate best x) m h
    have hmb2 : m ≤ b2 := h3 b2 hb2
    refine ⟨?_, ?_, ?_⟩
    · intro y hy
      rcases List.mem_cons.mp hy with rfl | hy2
      · exact le_trans hmb2 hb2x
      · exact h1 y hy2
    · rcases h2 with h2 | h2
      · exact Or.inl (List.mem_cons_of_mem x h2)
      · have hbm : b2 = m := by
          rw [hb2] at h2
          injection h2
        rcases hb2or with ho | ho
        · refine Or.inl ?_
          rw [← hbm, ho]
          exact List.mem_cons_self x xs
        · refine Or.inr ?_
          rw [← hbm]
          exact ho
    · intro b hbb
      exact le_trans hmb2 (hb2min b hbb)

/-- Folding the tracker from a present value always yields a value. -/
theorem bestFold_some (l : List ℚ) :
    ∀ b : ℚ, ∃ m, bestFold (some b) l = some m := by
  induction l with
  | nil =>
    intro b
    exact ⟨b, rfl⟩
  | cons x xs ih =>
    intro b
    obtain ⟨b2, hb2, -, -, -⟩ := bestUpdate_exists (some b) x
    simp only [bestFold]
    rw [hb2]
    exact ih b2

/-- Folding the tracker from the initial infinity over a non-empty list
yields a value. -/
theorem bestFold_none_some (x : ℚ) (xs : List ℚ) :
    ∃ m, bestFold none (x :: xs) = some m := by
  simp only [bestFold, bestUpdate]
  exact bestFold_some xs x

/-- Claim C7: train runs at least one epoch (given that any ran at all)
and returns the minimum training loss attained over the executed epochs
when best_loss is enabled, and the last executed epoch's training loss
when best_loss is disabled. -/
theorem trainRun_final (cfg : TrainerCfg) (t : ℕ → ℚ) (res : TrainResult)
    (h : trainRun cfg t = some res) :
    1 ≤ res.epochs_run ∧ res.epochs_run ≤ cfg.num_epochs ∧
    (cfg.best_loss = true →
      ∃ m, finalLoss cfg res = some m ∧
        (∀ j, j < res.epochs_run → m ≤ t j) ∧
        (∃ j, j < res.epochs_run ∧ t j = m)) ∧
    (cfg.best_loss = false →
      finalLoss cfg res = some (t (res.epochs_run - 1))) := by
  unfold trainRun at h
  by_cases hn : cfg.num_epochs = 0
  · rw [if_pos hn] at h
    cases h
  · rw [if_neg hn] at h
    injection h with h
    subst h
    obtain ⟨⟨hr1, hr2⟩, hr3, hr4, hr5⟩ :=
      trainLoop_runs cfg t cfg.num_epochs 0 none 0 none 0
    have hge1 : 1 ≤ (trainLoop cfg t cfg.num_epochs 0 none 0 none
        0).epochs_run := by
      have := hr3 (by omega)
      omega
    refine ⟨hge1, by omega, ?_, ?_⟩
    · intro hb
      have hbest := trainLoop_best cfg t hb cfg.num_epochs 0 none 0 none 0
      obtain ⟨w, hw⟩ : ∃ w, lossWindow t 0
          ((trainLoop cfg t cfg.num_epochs 0 none 0 none 0).epochs_run -
            0) = t 0 :: w := by
        have hm : (trainLoop cfg t cfg.num_epochs 0 none 0 none
            0).epochs_run - 0 =
            ((trainLoop cfg t cfg.num_epochs 0 none 0 none 0).epochs_run -
              1) + 1 := by omega
        rw [hm, lossWindow_succ]
        exact ⟨_, rfl⟩
      obtain ⟨m, hmv⟩ := bestFold_none_some (t 0) w
      rw [hw] at hbest
      obtain ⟨hs1, hs2, -⟩ := bestFold_spec (t 0 :: w) none m hmv
      rw [← hw] at hs1 hs2
      have hfin : finalLoss cfg (trainLoop cfg t cfg.num_epochs 0 none 0
          none 0) = some m := by
        unfold finalLoss
        rw [if_pos hb, hbest]
        exact hmv
      refine ⟨m, hfin, ?_, ?_⟩
      · intro j hj
        have hmem : t j ∈ lossWindow t 0
            ((trainLoop cfg t cfg.num_epochs 0 none 0 none 0).epochs_run -
              0) := by
          rw [mem_lossWindow]
          exact ⟨j, by omega, by norm_num⟩
        exact hs1 (t j) hmem
      · rcases hs2 with hs2 | hs2
        · rw [mem_lossWindow] at hs2
          obtain ⟨k, hk1, hk2⟩ := hs2
          refine ⟨k, by omega, ?_⟩
          rw [← hk2]
          norm_num
        · cases hs2
    · intro hb
      have hlast := hr4 (by omega)
      unfold finalLoss
      rw [if_neg (by rw [hb]; exact Bool.false_ne_true), hlast]

/-- Witness for C7, instantiated at the one-epoch configuration cfgW
with constant loss 4: the run completes, and with best_loss enabled the
returned loss is the minimum (here the only) training loss. -/
theorem trainRun_final_witness :
    1 ≤ resW.epochs_run ∧ resW.epochs_run ≤ cfgW.num_epochs ∧
    (cfgW.best_loss = true →
      ∃ m, finalLoss cfgW resW = some m ∧
        (∀ j, j < resW.epochs_run → m ≤ tW j) ∧
        (∃ j, j < resW.epochs_run ∧ tW j = m)) ∧
    (cfgW.best_loss = false →
      finalLoss cfgW resW = some (tW (resW.epochs_run - 1))) :=
  trainRun_final cfgW tW resW (by decide)

/-! ## Theorems about IQPEReuploadSU2Parity -/

/-- Claim C8: the constructor and the params setter raise the
descriptive ValueError exactly when the parameter list does not have
length 3, and succeed only on length 3; in the embedding the error
branch returns no model, matching the source where the raise precedes
every attribute assignment so no state is modified on error. -/
theorem IQPE_params_arity {T : Type} (m : IQPEModel T) (ps : List T)
    (om : ℚ) :
    ((IQPE_init ps om =
        Except.error "Parameters must be a list of 3 tensors") ↔
      ps.length ≠ 3) ∧
    ((IQPE_setParams m ps =
        Except.error "Parameters must be a list of 3 tensors") ↔
      ps.length ≠ 3) ∧
    (∀ m2 : IQPEModel T, IQPE_init ps om = Except.ok m2 →
      ps.length = 3) ∧
    (∀ m2 : IQPEModel T, IQPE_setParams m ps = Except.ok m2 →
      ps.length = 3) := by
  rcases ps with _ | ⟨a, _ | ⟨b, _ | ⟨c, _ | ⟨d, tl⟩⟩⟩⟩ <;>
    simp [IQPE_init, IQPE_setParams]

/-! ## Theorems about sequence_generator and parities -/

/-- sequence_generator n has exactly 2 to the n elements. -/
theorem sequence_generator_length (n : ℕ) :
    (sequence_generator n).length = 2 ^ n := by
  induction n with
  | zero => rfl
  | succ n ih =>
    have hsum : ∀ l : List (List ℕ),
        (List.map (fun _ => (2 : ℕ)) l).sum = 2 * l.length := by
      intro l
      induction l with
      | nil => rfl
      | cons a tl ih2 =>
        simp only [List.map_cons, List.sum_cons, List.length_cons, ih2]
        omega
    simp only [sequence_generator, List.length_flatMap]
    have hmap : List.map (List.length ∘ fun s => [s ++ [n], s])
        (sequence_generator n) =
        List.map (fun _ => (2 : ℕ)) (sequence_generator n) := by
      apply List.map_congr_left
      intro s hs
      rfl
    rw [hmap, hsum, ih, pow_succ, Nat.mul_comm]

/-- Every element of a sequence over n is below n. -/
theorem sequence_generator_lt (n : ℕ) :
    ∀ s ∈ sequence_generator n, ∀ x ∈ s, x < n := by
  induction n with
  | zero =>
    intro s hs x hx
    simp only [sequence_generator, List.mem_singleton] at hs
    subst hs
    cases hx
  | succ n ih =>
    intro s hs x hx
    simp only [sequence_generator, List.mem_flatMap] at hs
    obtain ⟨s2, hs2, hmem⟩ := hs
    simp only [List.mem_cons, List.mem_singleton, List.not_mem_nil,
      or_false] at hmem
    rcases hmem with rfl | rfl
    · rcases List.mem_append.mp hx with hx2 | hx2
      · exact lt_trans (ih s2 hs2 x hx2) (by omega)
      · rw [List.mem_singleton.mp hx2]
        omega
    · exact lt_trans (ih s hs2 x hx) (by omega)

/-- Every generated sequence is strictly increasing. -/
theorem sequence_generator_sorted (n : ℕ) :
    ∀ s ∈ sequence_generator n, s.Pairwise (· < ·) := by
  induction n with
  | zero =>
    intro s hs
    simp only [sequence_generator, List.mem_singleton] at hs
    subst hs
    exact List.Pairwise.nil
  | succ n ih =>
    intro s hs
    simp only [sequence_generator, List.mem_flatMap] at hs
    obtain ⟨s2, hs2, hmem⟩ := hs
    simp only [List.mem_cons, List.mem_singleton, List.not_mem_nil,
      or_false] at hmem
    rcases hmem with rfl | rfl
    · rw [List.pairwise_append]
      refine ⟨ih s2 hs2, List.pairwise_singleton _ _, ?_⟩
      intro a ha b hb
      rw [List.mem_singleton.mp hb]
      exact sequence_generator_lt n s2 hs2 a ha
    · exact ih s hs2

/-- Counting over a flatMap as the sum of the per-element counts. -/
theorem countP_flatMap_sum (p : List ℕ → Bool)
    (f : List ℕ → List (List ℕ)) :
    ∀ l : List (List ℕ),
      (l.flatMap f).countP p =
        (l.map (fun s => (f s).countP p)).sum := by
  intro l
  induction l with
  | nil => rfl
  | cons a tl ih =>
    rw [List.flatMap_cons, List.countP_append, ih]
    simp

/-- A count is the sum of the indicator values. -/
theorem countP_eq_sum_map (p : List ℕ → Bool) :
    ∀ l : List (List ℕ),
      l.countP p = (l.map (fun s => if p s then 1 else 0)).sum := by
  intro l
  induction l with
  | nil => rfl
  | cons a tl ih =>
    by_cases hpa : p a = true
    · simp [List.countP_cons, hpa, ih, Nat.add_comm]
    · simp [List.countP_cons, hpa, ih]

/-- Appending the new top element n to a sequence over n inserts n into
its subset of indices. -/
theorem toFinset_append_top (s : List ℕ) (n : ℕ) :
    (s ++ [n]).toFinset = insert n s.toFinset := by
  rw [List.toFinset_append]
  simp [Finset.insert_eq, Finset.union_comm]

/-- Every subset of range n is realized by exactly one generated
sequence. -/
theorem sequence_generator_countP (n : ℕ) :
    ∀ S : Finset ℕ, S ⊆ Finset.range n →
      (sequence_generator n).countP
        (fun s => decide (s.toFinset = S)) = 1 := by
  induction n with
  | zero =>
    intro S hS
    have hS0 : S = ∅ := by
      rwa [Finset.range_zero, Finset.subset_empty] at hS
    subst hS0
    simp [sequence_generator]
  | succ n ih =>
    intro S hS
    have hgen : sequence_generator (n + 1) =
        (sequence_generator n).flatMap (fun s => [s ++ [n], s]) := rfl
    rw [hgen, countP_flatMap_sum]
    by_cases hn : n ∈ S
    · have hmap : List.map (fun s => ([s ++ [n], s]).countP
          (fun s2 => decide (s2.toFinset = S))) (sequence_generator n) =
          List.map (fun s =>
            if decide (s.toFinset = S.erase n) = true then 1 else 0)
          (sequence_generator n) := by
        apply List.map_congr_left
        intro s hs
        have hnot : n ∉ s.toFinset := by
          rw [List.mem_toFinset]
          intro hcon
          exact absurd (sequence_generator_lt n s hs n hcon) (lt_irrefl n)
        have h1 : decide ((s ++ [n]).toFinset = S) =
            decide (s.toFinset = S.erase n) := by
          rw [decide_eq_decide, toFinset_append_top]
          constructor
          · intro h
            rw [← h, Finset.erase_insert hnot]
          · intro h
            rw [h, Finset.insert_erase hn]
        have h2 : decide (s.toFinset = S) = false := by
          apply decide_eq_false
          intro hcon
          rw [← hcon] at hn
          exact hnot hn
        rw [List.countP_cons, List.countP_cons, List.countP_nil, h1, h2]
        simp
      rw [hmap, ← countP_eq_sum_map]
      apply ih (S.erase n)
      intro x hx
      obtain ⟨hx1, hx2⟩ := Finset.mem_erase.mp hx
      have := Finset.mem_range.mp (hS hx2)
      exact Finset.mem_range.mpr (by omega)
    · have hmap : List.map (fun s => ([s ++ [n], s]).countP
          (fun s2 => decide (s2.toFinset = S))) (sequence_generator n) =
          List.map (fun s =>
            if decide (s.toFinset = S) = true then 1 else 0)
          (sequence_generator n) := by
        apply List.map_congr_left
        intro s hs
        have h1 : decide ((s ++ [n]).toFinset = S) = false := by
          apply decide_eq_false
          rw [toFinset_append_top]
          intro hcon
          apply hn
          rw [← hcon]
          exact Finset.mem_insert_self n s.toFinset
        rw [List.countP_cons, List.countP_cons, List.countP_nil, h1]
        simp
      rw [hmap, ← countP_eq_sum_map]
      apply ih S
      intro x hx
      have hxn : x ≠ n := by
        intro hcon
        rw [hcon] at hx
        exact hn hx
      have := Finset.mem_range.mp (hS hx)
      exact Finset.mem_range.mpr (by omega)

/-- Length of the observable list built by filterMap: the sequences
minus the empty ones. -/
theorem filterMap_parityOp_length :
    ∀ l : List (List ℕ),
      (l.filterMap parityOp).length =
        l.length - l.countP (fun s => decide (s = [])) := by
  intro l
  induction l with
  | nil => rfl
  | cons a tl ih =>
    have hc := @List.countP_le_length (List ℕ)
      (fun s => decide (s = [])) tl
    cases a with
    | nil =>
      have h0 : (([] : List ℕ) :: tl).filterMap parityOp =
          tl.filterMap parityOp := rfl
      rw [h0, ih, List.countP_cons]
      simp only [List.length_cons]
      norm_num
      omega
    | cons p rest =>
      have h0 : ((p :: rest) :: tl).filterMap parityOp =
          (rest.foldl (fun tmp i => Obs.prod tmp (Obs.pauliZ i))
            (Obs.pauliZ p)) :: tl.filterMap parityOp := rfl
      have hd : (decide ((p :: rest) = ([] : List ℕ))) = false := by simp
      rw [h0, List.countP_cons, hd]
      simp only [List.length_cons, ih]
      norm_num
      omega

/-- parities n has exactly 2 to the n observables. -/
theorem parities_length (n : ℕ) : (parities n).length = 2 ^ n := by
  unfold parities
  rw [List.length_append, filterMap_parityOp_length,
    sequence_generator_length]
  have hempty : (sequence_generator n).countP
      (fun s => decide (s = [])) = 1 := by
    have h := sequence_generator_countP n ∅ (Finset.empty_subset _)
    rw [← h]
    apply List.countP_congr
    intro s hs
    simp [List.toFinset_eq_empty_iff]
  rw [hempty]
  have h1 : 1 ≤ 2 ^ n := Nat.one_le_two_pow
  simp only [List.length_singleton]
  omega

/-- Claim C10 (amended): sequence_generator n returns exactly 2 to the
n sequences, enumerating every subset of the indices 0 through n - 1
exactly once, each sequence listed in strictly increasing order (not
decreasing: the element n - 1 is appended at the end); consequently
parities n returns exactly 2 to the n observables, one per non-empty
subset plus one identity term. -/
theorem sequence_generator_parities_spec (n : ℕ) :
    (sequence_generator n).length = 2 ^ n ∧
    (∀ s ∈ sequence_generator n,
      s.Pairwise (· < ·) ∧ ∀ x ∈ s, x < n) ∧
    (∀ S : Finset ℕ, S ⊆ Finset.range n →
      (sequence_generator n).countP
        (fun s => decide (s.toFinset = S)) = 1) ∧
    (parities n).length = 2 ^ n :=
  ⟨sequence_generator_length n,
   fun s hs =>
     ⟨sequence_generator_sorted n s hs, sequence_generator_lt n s hs⟩,
   sequence_generator_countP n, parities_length n⟩

/-- Counterexample to C10 as stated: the sequence [0, 1] produced at
n = 2 is strictly increasing, not strictly decreasing. -/
theorem sequence_generator_cex :
    sequence_generator 2 = [[0, 1], [0], [1], []] ∧
    [0, 1] ∈ sequence_generator 2 ∧
    ¬ List.Pairwise (fun a b : ℕ => b < a) [0, 1] := by
  decide

end QuLearn
